import Mathlib

/-!
Verification of the retrieval + aggregation pipeline of the AI_BookReader
repository (vector_store.py, main.py, qa_system.py), as a shallow embedding.

External library capabilities are modelled as explicit parameters:
* the SentenceTransformer embedding model is a function `embed : String → Vec`
  (vectors are lists of rationals; float arithmetic is modelled exactly);
* the nltk sentence tokenizer is a function on texts;
* the extractive QA pipeline is a function returning `Except` (a raised
  exception becomes `.error` with the exception string).

The FAISS `IndexFlatL2` index is modelled concretely: the stored vectors are a
list, and `index.search` computes squared-L2 distances, sorts ascending, takes
the first `k` hits and pads missing slots with label `-1` and distance
`FLT_MAX`, which is what FAISS does when `k` exceeds `ntotal`.

Python list indexing (which accepts negative indices and raises `IndexError`
out of range) is modelled by `pyGet`; a raised exception anywhere makes the
enclosing operation return `none`.
-/

abbrev Vec := List ℚ

/-- A metadata record as built in `main.add_book`: `{'source': ..., 'text': ...}`. -/
structure Meta where
  text : String
  source : String
deriving Repr, DecidableEq

/-- Squared L2 distance, as computed by `faiss.IndexFlatL2` for a stored
vector against the query vector. -/
def sqDist (u v : Vec) : ℚ := ((u.zip v).map fun p => (p.1 - p.2) ^ 2).sum

/-- FAISS pads unfilled result slots with distance `FLT_MAX`. -/
def fltMax : ℚ := 340282346638528859811704183484516925440

/-- Pair every stored vector with its position and its squared distance to the
query, positions counted from `i`. -/
def faissScored (q : Vec) : List Vec → Nat → List (Int × ℚ)
  | [], _ => []
  | v :: vs, i => ((i : Int), sqDist q v) :: faissScored q vs (i + 1)

/-- `index.search(q, k)` on a flat L2 index: all stored vectors scored by
distance, sorted ascending, first `k` taken, missing slots padded with label
`-1` and distance `FLT_MAX`. -/
def faissSearch (xs : List Vec) (q : Vec) (k : Nat) : List (Int × ℚ) :=
  let sorted := (faissScored q xs 0).insertionSort fun a b => a.2 ≤ b.2
  let top := sorted.take k
  top ++ List.replicate (k - top.length) ((-1 : Int), fltMax)

/-- Python list indexing `xs[i]`: nonnegative indices index from the front,
negative indices from the back, anything out of range raises (`none`). -/
def pyGet (xs : List α) (i : Int) : Option α :=
  if 0 ≤ i then xs[i.toNat]?
  else if (-i) ≤ (xs.length : Int) then xs[xs.length - (-i).toNat]? else none

/-- The result-collection loop of `VectorStore.search`:
`for idx, dist in zip(I[0], D[0]): if idx < len(self.metadata): results.append(...)`.
`none` models a raised `IndexError`. -/
def processHits (md : List Meta) : List (Int × ℚ) → Option (List (String × Meta × ℚ))
  | [] => some []
  | h :: hs =>
    if h.1 < (md.length : Int) then
      match pyGet md h.1 with
      | some m => (processHits md hs).map fun rest => (m.text, m, h.2) :: rest
      | none => none
    else processHits md hs

/-- The in-memory state of `VectorStore`: the FAISS index contents and the
parallel metadata list. -/
structure VectorStore where
  index : List Vec
  metadata : List Meta
deriving Repr, DecidableEq

namespace VectorStore

/-- `VectorStore.search`: returns `[]` on an empty index, otherwise embeds the
query, runs the FAISS search and collects in-bounds hits. -/
def search (s : VectorStore) (embed : String → Vec) (query : String)
    (top_k : Nat) : Option (List (String × Meta × ℚ)) :=
  if s.index.length = 0 then some []
  else processHits s.metadata (faissSearch s.index (embed query) top_k)

/-- `VectorStore.add_texts`: empty input is a no-op; otherwise embeddings are
appended to the index and metadata records appended in the same order. -/
def add_texts (s : VectorStore) (embed : String → Vec) (texts : List String)
    (meta : List Meta) : VectorStore :=
  if texts.isEmpty then s
  else { index := s.index ++ texts.map embed, metadata := s.metadata ++ meta }

end VectorStore

/-- State of one persisted artifact file: missing, present but unreadable
(read raises), or readable with some content. -/
inductive FileState (α : Type) where
  | absent
  | corrupt
  | good (content : α)
deriving Repr, DecidableEq

/-- The two coupled artifacts of a store: the FAISS index file and the
metadata `.npy` file. -/
structure Artifacts where
  indexFile : FileState (List Vec)
  metaFile : FileState (List Meta)
deriving Repr, DecidableEq

/-- `VectorStore.save`: writes both artifacts. -/
def VectorStore.save (s : VectorStore) : Artifacts :=
  ⟨.good s.index, .good s.metadata⟩

/-- `VectorStore._load_index`: if both artifact files exist and both reads
succeed, load them; on a missing file or any read failure, fall back to an
empty index and empty metadata (no error surfaced). -/
def load_index (a : Artifacts) : VectorStore :=
  match a.indexFile, a.metaFile with
  | .good i, .good m => ⟨i, m⟩
  | _, _ => ⟨[], []⟩

/-- The store a fresh `VectorStore(...)` construction starts from when no
artifacts are loadable. -/
def emptyStore : VectorStore := ⟨[], []⟩

/-! ## Chunker (`main.chunk_text`)

Texts are modelled as lists of characters, so that Python's whitespace
`str.split()` and `str.strip()` can be defined faithfully. The nltk
`sent_tokenize` capability is an external parameter. The model below is the
`_HAS_SENT_TOKENIZE` branch, the normal case; the word-window fallback taken
when nltk is unavailable is outside the claims considered here. -/

/-- Helper for `pyWords`: accumulate the current (reversed) word. -/
def wordsAux : List Char → List Char → List (List Char)
  | [], acc => if acc.isEmpty then [] else [acc.reverse]
  | c :: cs, acc =>
    if c.isWhitespace then
      if acc.isEmpty then wordsAux cs [] else acc.reverse :: wordsAux cs []
    else wordsAux cs (c :: acc)

/-- Python `text.split()`: split on runs of whitespace, no empty words. -/
def pyWords (s : List Char) : List (List Char) := wordsAux s []

/-- Word count of a text, `len(text.split())`. -/
def wc (s : List Char) : Nat := (pyWords s).length

/-- Python `text.strip()`: drop leading and trailing whitespace. -/
def pyStrip (s : List Char) : List Char :=
  ((s.dropWhile Char.isWhitespace).reverse.dropWhile Char.isWhitespace).reverse

/-- The sentence-accumulation loop of `chunk_text`: greedily extend `current`
with the next sentence; when the combined word count would exceed
`chunk_size`, flush `current` (if nonempty, stripped) and restart from the
sentence. The remaining buffer is flushed at the end. -/
def chunkLoop (chunk_size : Nat) :
    List (List Char) → List (List Char) → List Char → List (List Char)
  | [], chunks, current =>
    if current.isEmpty then chunks else chunks ++ [pyStrip current]
  | sent :: rest, chunks, current =>
    if chunk_size < wc (current ++ ' ' :: sent) then
      chunkLoop chunk_size rest
        (if current.isEmpty then chunks else chunks ++ [pyStrip current]) sent
    else chunkLoop chunk_size rest chunks (current ++ ' ' :: sent)

/-- `main.chunk_text` (sentence-aware branch): a text of at most `chunk_size`
words is one chunk; otherwise sentences are accumulated greedily. -/
def chunk_text (tokenize : List Char → List (List Char)) (text : List Char)
    (chunk_size : Nat) : List (List Char) :=
  if wc text ≤ chunk_size then [text]
  else chunkLoop chunk_size (tokenize text) [] []

/-! ## Answer aggregator (`qa_system.QASystem.answer_question`) -/

/-- One per-context answer record as built in `answer_question`. -/
structure Candidate where
  answer : String
  score : ℚ
  context : String
  meta : Meta
  error : Option String
deriving Repr, DecidableEq

/-- The per-context body of the aggregation loop: run the extractive QA
pipeline on `(question, context)`; on success record its answer and score, on
a raised exception record an empty answer, score `0.0` and the exception
string. -/
def mkCandidate (extract : String → String → Except String (String × ℚ))
    (question : String) (r : String × Meta × ℚ) : Candidate :=
  match extract question r.1 with
  | .ok (ans, sc) => ⟨ans, sc, r.1, r.2.1, none⟩
  | .error e => ⟨"", 0, r.1, r.2.1, some e⟩

/-- Python `max(candidates, key=lambda x: x['score'])` guarded by
`if candidates else None`: the first element attaining the maximal key wins a
tie, because the running maximum is replaced only on a strictly greater key. -/
def pyMaxBy (key : Candidate → ℚ) : List Candidate → Option Candidate
  | [] => none
  | x :: xs => some (xs.foldl (fun b a => if key b < key a then a else b) x)

/-- The dict returned by `answer_question`. -/
structure QAResult where
  best_answer : Option Candidate
  all_answers : List Candidate
  message : Option String
deriving Repr, DecidableEq

/-- `QASystem.answer_question`: retrieve `top_k` chunks, build one candidate
per retrieved context (failure isolated per candidate), and pick the
best-scoring one. `none` models an exception propagating out of `search`. -/
def answer_question (s : VectorStore) (embed : String → Vec)
    (extract : String → String → Except String (String × ℚ))
    (question : String) (top_k : Nat) : Option QAResult :=
  (s.search embed question top_k).map fun results =>
    if results.isEmpty then
      ⟨none, [], some "No documents in the index."⟩
    else
      let candidates := results.map (mkCandidate extract question)
      ⟨pyMaxBy (fun c => c.score) candidates, candidates, none⟩

/-! ## Helper lemmas -/

/-- Adding one `(text, metadata)` pair appends one embedding and one record. -/
theorem add_texts_single (st : VectorStore) (embed : String → Vec) (t : String)
    (m : Meta) :
    st.add_texts embed [t] [m] =
      ⟨st.index ++ [embed t], st.metadata ++ [m]⟩ := by
  simp [VectorStore.add_texts]

/-- Folding single-pair adds over a list appends all embeddings and records. -/
theorem foldl_add_texts (embed : String → Vec) (pairs : List (String × Meta)) :
    ∀ st : VectorStore,
      (pairs.foldl (fun st p => st.add_texts embed [p.1] [p.2]) st) =
        ⟨st.index ++ pairs.map fun p => embed p.1,
         st.metadata ++ pairs.map Prod.snd⟩ := by
  induction pairs with
  | nil => intro st; simp
  | cons p rest ih =>
    intro st
    rw [List.foldl_cons, add_texts_single, ih]
    simp [List.append_assoc]

/-- A run of pure whitespace contributes no word beyond the pending one. -/
theorem wordsAux_allws (t : List Char) (ht : ∀ c ∈ t, c.isWhitespace) :
    ∀ acc, wordsAux t acc = if acc.isEmpty then [] else [acc.reverse] := by
  induction t with
  | nil => intro acc; rfl
  | cons c cs ih =>
    intro acc
    have hc : c.isWhitespace := ht c (List.mem_cons_self c cs)
    have ih' := ih (fun x hx => ht x (List.mem_cons_of_mem c hx))
    simp only [wordsAux, hc, if_true]
    by_cases hacc : acc.isEmpty <;> simp [hacc, ih']

/-- Trailing whitespace does not change the word decomposition. -/
theorem wordsAux_append_allws (t : List Char) (ht : ∀ c ∈ t, c.isWhitespace) :
    ∀ s acc, wordsAux (s ++ t) acc = wordsAux s acc := by
  intro s
  induction s with
  | nil =>
    intro acc
    simp only [List.nil_append, wordsAux_allws t ht acc, wordsAux]
  | cons c cs ih =>
    intro acc
    simp only [List.cons_append, wordsAux]
    by_cases hc : c.isWhitespace <;>
      by_cases hacc : acc.isEmpty <;> simp [hc, hacc, ih]

/-- Leading whitespace does not change the word decomposition. -/
theorem pyWords_dropWhile (s : List Char) :
    pyWords (s.dropWhile Char.isWhitespace) = pyWords s := by
  induction s with
  | nil => rfl
  | cons c cs ih =>
    by_cases hc : c.isWhitespace
    · simpa [pyWords, List.dropWhile_cons, hc, wordsAux] using ih
    · simp [List.dropWhile_cons, hc]

/-- Python `strip()` preserves the word decomposition of a text. -/
theorem pyWords_pyStrip (s : List Char) : pyWords (pyStrip s) = pyWords s := by
  set t := s.dropWhile Char.isWhitespace with hts
  have hsplit : t = (t.reverse.dropWhile Char.isWhitespace).reverse ++
      (t.reverse.takeWhile Char.isWhitespace).reverse := by
    have h := List.takeWhile_append_dropWhile (p := Char.isWhitespace)
      (l := t.reverse)
    calc t = t.reverse.reverse := (List.reverse_reverse t).symm
    _ = (t.reverse.takeWhile Char.isWhitespace ++
          t.reverse.dropWhile Char.isWhitespace).reverse := by rw [h]
    _ = _ := by rw [List.reverse_append]
  have hws : ∀ c ∈ (t.reverse.takeWhile Char.isWhitespace).reverse,
      c.isWhitespace := by
    intro c hc
    exact List.mem_takeWhile_imp (List.mem_reverse.mp hc)
  have : pyWords t = pyWords (t.reverse.dropWhile Char.isWhitespace).reverse := by
    conv_lhs => rw [hsplit]
    exact wordsAux_append_allws _ hws _ []
  calc pyWords (pyStrip s)
      = pyWords (t.reverse.dropWhile Char.isWhitespace).reverse := rfl
    _ = pyWords t := this.symm
    _ = pyWords s := pyWords_dropWhile s

/-- `strip()` preserves the word count. -/
theorem wc_pyStrip (s : List Char) : wc (pyStrip s) = wc s := by
  simp [wc, pyWords_pyStrip]

/-- Soundness invariant of the sentence-accumulation loop: every produced
chunk either fits in `chunk_size` words or carries exactly the words of one
oversized sentence drawn from `S`. -/
theorem chunkLoop_sound (cs : Nat) (S : List (List Char)) :
    ∀ sents : List (List Char), (∀ x ∈ sents, x ∈ S) →
      ∀ (chunks : List (List Char)) (current : List Char),
        (∀ c ∈ chunks,
          wc c ≤ cs ∨ ∃ s ∈ S, pyWords c = pyWords s ∧ cs < wc s) →
        (wc current ≤ cs ∨
          ∃ s ∈ S, pyWords current = pyWords s ∧ cs < wc s) →
        ∀ c ∈ chunkLoop cs sents chunks current,
          wc c ≤ cs ∨ ∃ s ∈ S, pyWords c = pyWords s ∧ cs < wc s := by
  intro sents
  induction sents with
  | nil =>
    intro _ chunks current hchunks hcur c hc
    simp only [chunkLoop] at hc
    by_cases hemp : current.isEmpty
    · rw [if_pos hemp] at hc
      exact hchunks c hc
    · rw [if_neg hemp] at hc
      rcases List.mem_append.mp hc with h | h
      · exact hchunks c h
      · have hc' : c = pyStrip current := List.mem_singleton.mp h
        subst hc'
        rcases hcur with h1 | ⟨s, hs, hw, hbig⟩
        · exact Or.inl (by rw [wc_pyStrip]; exact h1)
        · exact Or.inr ⟨s, hs, by rw [pyWords_pyStrip]; exact hw, hbig⟩
  | cons sent rest ih =>
    intro hsub chunks current hchunks hcur c hc
    have hsent : sent ∈ S := hsub sent (List.mem_cons_self sent rest)
    have hsub' : ∀ x ∈ rest, x ∈ S :=
      fun x hx => hsub x (List.mem_cons_of_mem sent hx)
    simp only [chunkLoop] at hc
    by_cases hguard : cs < wc (current ++ ' ' :: sent)
    · rw [if_pos hguard] at hc
      have hchunks' : ∀ c' ∈ (if current.isEmpty then chunks
          else chunks ++ [pyStrip current]),
          wc c' ≤ cs ∨ ∃ s ∈ S, pyWords c' = pyWords s ∧ cs < wc s := by
        intro c' hc'
        by_cases hemp : current.isEmpty
        · rw [if_pos hemp] at hc'
          exact hchunks c' hc'
        · rw [if_neg hemp] at hc'
          rcases List.mem_append.mp hc' with h | h
          · exact hchunks c' h
          · have he : c' = pyStrip current := List.mem_singleton.mp h
            subst he
            rcases hcur with h1 | ⟨s, hs, hw, hbig⟩
            · exact Or.inl (by rw [wc_pyStrip]; exact h1)
            · exact Or.inr ⟨s, hs, by rw [pyWords_pyStrip]; exact hw, hbig⟩
      have hcur' : wc sent ≤ cs ∨
          ∃ s ∈ S, pyWords sent = pyWords s ∧ cs < wc s := by
        by_cases hbig : wc sent ≤ cs
        · exact Or.inl hbig
        · exact Or.inr ⟨sent, hsent, rfl, Nat.lt_of_not_le hbig⟩
      exact ih hsub' _ sent hchunks' hcur' c hc
    · rw [if_neg hguard] at hc
      exact ih hsub' chunks _ hchunks (Or.inl (Nat.le_of_not_lt hguard)) c hc

/-- The running-maximum fold of Python `max`: the result is either the seed
(then nothing beats the seed) or the first list element strictly beating both
the seed and everything before it, and nothing afterwards beats it. -/
theorem foldl_max_spec (key : Candidate → ℚ) :
    ∀ (xs : List Candidate) (b : Candidate),
      (xs.foldl (fun b a => if key b < key a then a else b) b = b ∧
          ∀ c ∈ xs, key c ≤ key b) ∨
        (∃ (i : Nat) (c : Candidate), xs[i]? = some c ∧
          xs.foldl (fun b a => if key b < key a then a else b) b = c ∧
          key b < key c ∧
          (∀ j < i, ∀ c', xs[j]? = some c' → key c' < key c) ∧
          ∀ c' ∈ xs, key c' ≤ key c) := by
  intro xs
  induction xs with
  | nil => intro b; exact Or.inl ⟨rfl, by intro c hc; cases hc⟩
  | cons a rest ih =>
    intro b
    by_cases hba : key b < key a
    · rw [List.foldl_cons, if_pos hba]
      rcases ih a with ⟨heq, hle⟩ | ⟨i, c, hget, heq, hlt, hpre, hle⟩
      · refine Or.inr ⟨0, a, List.getElem?_cons_zero, heq, hba, ?_, ?_⟩
        · intro j hj; omega
        · intro c' hc'
          rcases List.mem_cons.mp hc' with h | h
          · exact h ▸ le_refl _
          · exact hle c' h
      · refine Or.inr ⟨i + 1, c, by simpa using hget, heq,
          lt_trans hba hlt, ?_, ?_⟩
        · intro j hj c' hc'
          cases j with
          | zero =>
            have : a = c' := by simpa using hc'
            exact this.symm ▸ hlt
          | succ j' =>
            exact hpre j' (by omega) c' (by simpa using hc')
        · intro c' hc'
          rcases List.mem_cons.mp hc' with h | h
          · exact h ▸ le_of_lt hlt
          · exact hle c' h
    · rw [List.foldl_cons, if_neg hba]
      have hab : key a ≤ key b := le_of_not_lt hba
      rcases ih b with ⟨heq, hle⟩ | ⟨i, c, hget, heq, hlt, hpre, hle⟩
      · refine Or.inl ⟨heq, ?_⟩
        intro c' hc'
        rcases List.mem_cons.mp hc' with h | h
        · exact h ▸ hab
        · exact hle c' h
      · refine Or.inr ⟨i + 1, c, by simpa using hget, heq, hlt, ?_, ?_⟩
        · intro j hj c' hc'
          cases j with
          | zero =>
            have : a = c' := by simpa using hc'
            exact this.symm ▸ lt_of_le_of_lt hab hlt
          | succ j' =>
            exact hpre j' (by omega) c' (by simpa using hc')
        · intro c' hc'
          rcases List.mem_cons.mp hc' with h | h
          · exact h ▸ le_of_lt (lt_of_le_of_lt hab hlt)
          · exact hle c' h

/-- `max(candidates, key=...)` on a nonempty list returns the first candidate
attaining the maximal key: everything strictly before it scores strictly
lower, and nothing scores higher. -/
theorem pyMaxBy_spec (key : Candidate → ℚ) (l : List Candidate)
    (hne : l ≠ []) :
    ∃ (b : Candidate) (i : Nat), pyMaxBy key l = some b ∧ l[i]? = some b ∧
      (∀ j < i, ∀ c, l[j]? = some c → key c < key b) ∧
      ∀ c ∈ l, key c ≤ key b := by
  match l, hne with
  | x :: xs, _ =>
    rcases foldl_max_spec key xs x with ⟨heq, hle⟩ | ⟨i, c, hget, heq, hlt, hpre, hle⟩
    · refine ⟨x, 0, ?_, List.getElem?_cons_zero, ?_, ?_⟩
      · simp [pyMaxBy, heq]
      · intro j hj; omega
      · intro c' hc'
        rcases List.mem_cons.mp hc' with h | h
        · exact h ▸ le_refl _
        · exact hle c' h
    · refine ⟨c, i + 1, ?_, by simpa using hget, ?_, ?_⟩
      · simp [pyMaxBy, heq]
      · intro j hj c' hc'
        cases j with
        | zero =>
          have : x = c' := by simpa using hc'
          exact this.symm ▸ hlt
        | succ j' =>
          exact hpre j' (by omega) c' (by simpa using hc')
      · intro c' hc'
        rcases List.mem_cons.mp hc' with h | h
        · exact h ▸ le_of_lt hlt
        · exact hle c' h

/-! ## Claim theorems -/

/-- C9: a text whose word count is at most `chunk_size` is returned as a
single chunk equal to the input text. -/
theorem chunk_text_small (tokenize : List Char → List (List Char))
    (text : List Char) (chunk_size : Nat) (h : wc text ≤ chunk_size) :
    chunk_text tokenize text chunk_size = [text] := by
  simp [chunk_text, h]

theorem chunk_text_small_witness :
    wc ['h', 'i'] ≤ 500 ∧
      chunk_text (fun _ => []) ['h', 'i'] 500 = [['h', 'i']] :=
  ⟨by decide, chunk_text_small (fun _ => []) ['h', 'i'] 500 (by decide)⟩

/-- C5: when the text has more than `chunk_size` words, every chunk produced
by the sentence-aware splitter either has at most `chunk_size` words, or
consists exactly of the words of a single tokenized sentence that by itself
exceeds `chunk_size` (kept whole in its own chunk). -/
theorem chunk_text_bounded (tokenize : List Char → List (List Char))
    (text : List Char) (chunk_size : Nat) (h : chunk_size < wc text) :
    ∀ c ∈ chunk_text tokenize text chunk_size,
      wc c ≤ chunk_size ∨
        ∃ s ∈ tokenize text, pyWords c = pyWords s ∧ chunk_size < wc s := by
  intro c hc
  have hnle : ¬ wc text ≤ chunk_size := Nat.not_le_of_lt h
  rw [chunk_text, if_neg hnle] at hc
  exact chunkLoop_sound chunk_size (tokenize text) (tokenize text)
    (fun x hx => hx) [] [] (by intro c' hc'; cases hc')
    (Or.inl (Nat.zero_le _)) c hc

theorem chunk_text_bounded_witness :
    1 < wc ['h', 'i', ' ', 'y', 'o'] ∧
      ∀ c ∈ chunk_text (fun t => [t]) ['h', 'i', ' ', 'y', 'o'] 1,
        wc c ≤ 1 ∨
          ∃ s ∈ (fun (t : List Char) => [t]) ['h', 'i', ' ', 'y', 'o'],
            pyWords c = pyWords s ∧ 1 < wc s :=
  ⟨by decide,
    chunk_text_bounded (fun t => [t]) ['h', 'i', ' ', 'y', 'o'] 1 (by decide)⟩

/-- C8: if either artifact file is absent, or reading either fails, the
constructed store is empty, and no error is surfaced (loading is total). -/
theorem load_index_degraded (a : Artifacts)
    (h : a.indexFile = .absent ∨ a.metaFile = .absent ∨
         a.indexFile = .corrupt ∨ a.metaFile = .corrupt) :
    load_index a = emptyStore := by
  obtain ⟨fi, fm⟩ := a
  cases fi <;> cases fm <;> simp_all [load_index, emptyStore]

theorem load_index_degraded_witness :
    load_index ⟨.absent, .good [⟨"t", "s"⟩]⟩ = emptyStore :=
  load_index_degraded ⟨.absent, .good [⟨"t", "s"⟩]⟩ (Or.inl rfl)

/-- C2: starting from a store whose vector count equals its metadata count,
`add_texts` on equal-length inputs preserves that equality, and positional
alignment holds: the metadata afterwards is the old metadata followed by the
new records in input order, and the index is the old vectors followed by the
embeddings of the new texts in input order. -/
theorem add_texts_invariant (s : VectorStore) (embed : String → Vec)
    (texts : List String) (meta : List Meta)
    (h1 : s.index.length = s.metadata.length)
    (h2 : texts.length = meta.length) :
    (s.add_texts embed texts meta).index.length =
        (s.add_texts embed texts meta).metadata.length ∧
      (s.add_texts embed texts meta).metadata = s.metadata ++ meta ∧
      (s.add_texts embed texts meta).index = s.index ++ texts.map embed := by
  cases texts with
  | nil =>
    have : meta = [] := List.eq_nil_of_length_eq_zero h2.symm
    subst this
    simp [VectorStore.add_texts, h1]
  | cons t ts =>
    have hrw : s.add_texts embed (t :: ts) meta =
        ⟨s.index ++ (t :: ts).map embed, s.metadata ++ meta⟩ := by
      simp [VectorStore.add_texts]
    rw [hrw]
    refine ⟨?_, rfl, rfl⟩
    simp only [List.length_append, List.length_map, h1, ← h2]

theorem add_texts_invariant_witness :
    ((VectorStore.mk [[(1 : ℚ)]] [⟨"a", "x"⟩]).add_texts (fun _ => [(0 : ℚ)])
          ["b"] [⟨"b", "y"⟩]).index.length =
        ((VectorStore.mk [[(1 : ℚ)]] [⟨"a", "x"⟩]).add_texts (fun _ => [(0 : ℚ)])
          ["b"] [⟨"b", "y"⟩]).metadata.length ∧
      ((VectorStore.mk [[(1 : ℚ)]] [⟨"a", "x"⟩]).add_texts (fun _ => [(0 : ℚ)])
          ["b"] [⟨"b", "y"⟩]).metadata = [⟨"a", "x"⟩] ++ [⟨"b", "y"⟩] ∧
      ((VectorStore.mk [[(1 : ℚ)]] [⟨"a", "x"⟩]).add_texts (fun _ => [(0 : ℚ)])
          ["b"] [⟨"b", "y"⟩]).index = [[(1 : ℚ)]] ++ (["b"].map fun _ => [(0 : ℚ)]) :=
  add_texts_invariant _ _ _ _ rfl rfl

/-- C3: adding N `(text, metadata)` pairs to a fresh store and then
constructing a new store from the persisted artifacts yields an index with
exactly N entries whose metadata list, in order, is the original metadata. -/
theorem save_load_roundtrip (embed : String → Vec)
    (pairs : List (String × Meta)) :
    (load_index (VectorStore.save
        (pairs.foldl (fun st p => st.add_texts embed [p.1] [p.2])
          emptyStore))).index.length = pairs.length ∧
      (load_index (VectorStore.save
        (pairs.foldl (fun st p => st.add_texts embed [p.1] [p.2])
          emptyStore))).metadata = pairs.map Prod.snd := by
  rw [foldl_add_texts]
  simp [load_index, VectorStore.save, emptyStore]

/-! ## Concrete data for witnesses -/

/-- A three-entry store: vectors `[0]`, `[1]`, `[2]` with parallel metadata. -/
def demoStore : VectorStore :=
  ⟨[[0], [1], [2]],
   [⟨"alpha", "book"⟩, ⟨"beta", "book"⟩, ⟨"gamma", "book"⟩]⟩

/-- A deterministic embedding stand-in mapping every text to `[0]`. -/
def demoEmbed : String → Vec := fun _ => [0]

/-- What `demoStore.search demoEmbed _ 3` retrieves. -/
def demoRes : List (String × Meta × ℚ) :=
  [("alpha", ⟨"alpha", "book"⟩, 0), ("beta", ⟨"beta", "book"⟩, 1),
   ("gamma", ⟨"gamma", "book"⟩, 4)]

/-- An extraction stand-in scoring the three demo contexts 0.2, 0.9, 0.5. -/
def demoExtractScores : String → String → Except String (String × ℚ) :=
  fun _ ctx =>
    if ctx = "alpha" then .ok ("a", 2/10)
    else if ctx = "beta" then .ok ("b", 9/10)
    else .ok ("c", 5/10)

/-- An extraction stand-in that raises on the second demo context. -/
def demoExtractErr : String → String → Except String (String × ℚ) :=
  fun _ ctx => if ctx = "beta" then .error "boom" else .ok ("a", 1/2)

/-- C6: when retrieval yields a nonempty list, `answer_question` returns the
full candidate list in retrieval order, and `best_answer` is the candidate
with maximal score, the first one winning ties (everything strictly earlier
scores strictly lower, nothing scores higher). -/
theorem answer_question_selects_max (s : VectorStore) (embed : String → Vec)
    (extract : String → String → Except String (String × ℚ)) (q : String)
    (k : Nat) (res : List (String × Meta × ℚ))
    (hres : s.search embed q k = some res) (hne : res ≠ []) :
    ∃ r : QAResult, answer_question s embed extract q k = some r ∧
      r.all_answers = res.map (mkCandidate extract q) ∧
      ∃ (b : Candidate) (i : Nat), r.best_answer = some b ∧
        r.all_answers[i]? = some b ∧
        (∀ j < i, ∀ c, r.all_answers[j]? = some c → c.score < b.score) ∧
        ∀ c ∈ r.all_answers, c.score ≤ b.score := by
  have hie : res.isEmpty = false := List.isEmpty_eq_false.mpr hne
  have hmapne : res.map (mkCandidate extract q) ≠ [] := by
    simpa using hne
  refine ⟨⟨pyMaxBy (fun c => c.score) (res.map (mkCandidate extract q)),
      res.map (mkCandidate extract q), none⟩, ?_, rfl, ?_⟩
  · simp [answer_question, hres, hie, hne]
  · obtain ⟨b, i, h1, h2, h3, h4⟩ :=
      pyMaxBy_spec (fun c => c.score) (res.map (mkCandidate extract q)) hmapne
    exact ⟨b, i, h1, h2, h3, h4⟩

unseal Rat.add Rat.sub Rat.mul Rat.inv in
theorem answer_question_selects_max_witness :
    ∃ r : QAResult,
      answer_question demoStore demoEmbed demoExtractScores "q" 3 = some r ∧
      r.all_answers = demoRes.map (mkCandidate demoExtractScores "q") ∧
      ∃ (b : Candidate) (i : Nat), r.best_answer = some b ∧
        r.all_answers[i]? = some b ∧
        (∀ j < i, ∀ c, r.all_answers[j]? = some c → c.score < b.score) ∧
        ∀ c ∈ r.all_answers, c.score ≤ b.score :=
  answer_question_selects_max demoStore demoEmbed demoExtractScores "q" 3
    demoRes (by decide) (by decide)

/-- C7: one candidate is produced per retrieved context; a context whose
extraction raises yields a candidate with empty answer, score `0.0` and the
error string recorded, without aborting the batch or the request. -/
theorem answer_question_isolates_failures (s : VectorStore)
    (embed : String → Vec)
    (extract : String → String → Except String (String × ℚ)) (q : String)
    (k : Nat) (res : List (String × Meta × ℚ))
    (hres : s.search embed q k = some res) :
    ∃ r : QAResult, answer_question s embed extract q k = some r ∧
      r.all_answers.length = res.length ∧
      ∀ (i : Nat) (ctx : String) (m : Meta) (d : ℚ) (e : String),
        res[i]? = some (ctx, m, d) → extract q ctx = .error e →
        r.all_answers[i]? = some ⟨"", 0, ctx, m, some e⟩ := by
  by_cases hie : res.isEmpty
  · have hres0 : res = [] := List.isEmpty_iff.mp hie
    subst hres0
    refine ⟨⟨none, [], some "No documents in the index."⟩,
      by simp [answer_question, hres], rfl, ?_⟩
    intro i ctx m d e hget
    simp at hget
  · have hie' : res.isEmpty = false := by simpa using hie
    have hne : res ≠ [] := List.isEmpty_eq_false.mp hie'
    refine ⟨⟨pyMaxBy (fun c => c.score) (res.map (mkCandidate extract q)),
        res.map (mkCandidate extract q), none⟩,
      by simp [answer_question, hres, hie', hne], by simp, ?_⟩
    intro i ctx m d e hget herr
    simp only [List.getElem?_map, hget, Option.map_some']
    simp [mkCandidate, herr]

unseal Rat.add Rat.sub Rat.mul Rat.inv in
theorem answer_question_isolates_failures_witness :
    ∃ r : QAResult,
      answer_question demoStore demoEmbed demoExtractErr "q" 3 = some r ∧
      r.all_answers.length = demoRes.length ∧
      ∀ (i : Nat) (ctx : String) (m : Meta) (d : ℚ) (e : String),
        demoRes[i]? = some (ctx, m, d) → demoExtractErr "q" ctx = .error e →
        r.all_answers[i]? = some ⟨"", 0, ctx, m, some e⟩ :=
  answer_question_isolates_failures demoStore demoEmbed demoExtractErr "q" 3
    demoRes (by decide)

/-- C10: with a nonempty retrieval, the best answer is itself one of the
returned candidates, and the candidate list is nonempty. -/
theorem answer_question_best_mem (s : VectorStore) (embed : String → Vec)
    (extract : String → String → Except String (String × ℚ)) (q : String)
    (k : Nat) (res : List (String × Meta × ℚ))
    (hres : s.search embed q k = some res) (hne : res ≠ []) :
    ∃ (r : QAResult) (b : Candidate),
      answer_question s embed extract q k = some r ∧
      r.best_answer = some b ∧ b ∈ r.all_answers ∧ r.all_answers ≠ [] := by
  have hie : res.isEmpty = false := List.isEmpty_eq_false.mpr hne
  have hmapne : res.map (mkCandidate extract q) ≠ [] := by
    simpa using hne
  obtain ⟨b, i, h1, h2, _, _⟩ :=
    pyMaxBy_spec (fun c => c.score) (res.map (mkCandidate extract q)) hmapne
  exact ⟨⟨pyMaxBy (fun c => c.score) (res.map (mkCandidate extract q)),
      res.map (mkCandidate extract q), none⟩, b,
    by simp [answer_question, hres, hie, hne], h1, List.getElem?_mem h2, hmapne⟩

unseal Rat.add Rat.sub Rat.mul Rat.inv in
theorem answer_question_best_mem_witness :
    ∃ (r : QAResult) (b : Candidate),
      answer_question demoStore demoEmbed demoExtractErr "q2" 3 = some r ∧
      r.best_answer = some b ∧ b ∈ r.all_answers ∧ r.all_answers ≠ [] :=
  answer_question_best_mem demoStore demoEmbed demoExtractErr "q2" 3 demoRes
    (by decide) (by decide)

/-! ## FAISS search and result-collection lemmas -/

/-- Squared L2 distances are nonnegative. -/
theorem sqDist_nonneg (q v : Vec) : 0 ≤ sqDist q v := by
  apply List.sum_nonneg
  intro x hx
  obtain ⟨p, _, rfl⟩ := List.mem_map.mp hx
  exact sq_nonneg _

/-- Every scored entry carries a position in `[i, i + length)` and a
nonnegative distance. -/
theorem faissScored_bounds (q : Vec) :
    ∀ (vs : List Vec) (i : Nat) (h : Int × ℚ), h ∈ faissScored q vs i →
      (i : Int) ≤ h.1 ∧ h.1 < (i : Int) + vs.length ∧ 0 ≤ h.2 := by
  intro vs
  induction vs with
  | nil => intro i h hh; cases hh
  | cons v vs ih =>
    intro i h hh
    rcases List.mem_cons.mp hh with rfl | hh'
    · refine ⟨le_refl _, ?_, sqDist_nonneg q v⟩
      simp only [List.length_cons]
      push_cast
      omega
    · obtain ⟨h1, h2, h3⟩ := ih (i + 1) h hh'
      refine ⟨?_, ?_, h3⟩
      · push_cast at h1 ⊢; omega
      · simp only [List.length_cons] at *
        push_cast at h2 ⊢; omega

/-- `faissScored` scores every stored vector. -/
theorem faissScored_length (q : Vec) :
    ∀ (vs : List Vec) (i : Nat), (faissScored q vs i).length = vs.length := by
  intro vs
  induction vs with
  | nil => intro i; rfl
  | cons v vs ih => intro i; simp [faissScored, ih]

/-- Every hit FAISS returns is either the `-1` padding or an in-index
position with a nonnegative distance. -/
theorem faissSearch_mem (xs : List Vec) (q : Vec) (k : Nat) (h : Int × ℚ)
    (hh : h ∈ faissSearch xs q k) :
    h = ((-1 : Int), fltMax) ∨
      (0 ≤ h.1 ∧ h.1 < (xs.length : Int) ∧ 0 ≤ h.2) := by
  rcases List.mem_append.mp hh with hm | hm
  · right
    have hm' : h ∈ (faissScored q xs 0).insertionSort fun a b => a.2 ≤ b.2 :=
      List.mem_of_mem_take hm
    have hm'' : h ∈ faissScored q xs 0 := (List.mem_insertionSort _).mp hm'
    obtain ⟨h1, h2, h3⟩ := faissScored_bounds q xs 0 h hm''
    push_cast at h1 h2
    exact ⟨h1, by simpa using h2, h3⟩
  · left
    exact List.eq_of_mem_replicate hm

/-- When the store holds at least `k` vectors, FAISS needs no padding: the
result is exactly the first `k` sorted hits. -/
theorem faissSearch_of_le (xs : List Vec) (q : Vec) (k : Nat)
    (hk : k ≤ xs.length) :
    faissSearch xs q k =
      ((faissScored q xs 0).insertionSort fun a b => a.2 ≤ b.2).take k ∧
      (faissSearch xs q k).length = k := by
  have hslen : ((faissScored q xs 0).insertionSort
      fun a b => a.2 ≤ b.2).length = xs.length := by
    rw [List.length_insertionSort, faissScored_length]
  have htlen : (((faissScored q xs 0).insertionSort
      fun a b => a.2 ≤ b.2).take k).length = k := by
    rw [List.length_take, hslen]
    omega
  have heq : faissSearch xs q k =
      ((faissScored q xs 0).insertionSort fun a b => a.2 ≤ b.2).take k := by
    show _ ++ List.replicate _ _ = _
    rw [htlen]
    simp
  exact ⟨heq, by rw [heq, htlen]⟩

/-- Python indexing succeeds on a nonempty list for any index in
`[-1, length)`. -/
theorem pyGet_some (md : List Meta) (hmd : md ≠ []) (i : Int)
    (hlo : -1 ≤ i) (hhi : i < (md.length : Int)) :
    ∃ m, pyGet md i = some m := by
  have hpos : 0 < md.length := List.length_pos.mpr hmd
  by_cases h0 : 0 ≤ i
  · have ht : i.toNat < md.length := by omega
    exact ⟨md[i.toNat], by simp [pyGet, h0, List.getElem?_eq_getElem ht]⟩
  · have hi : i = -1 := by omega
    subst hi
    have hlen : (1 : Int) ≤ (md.length : Int) := by omega
    have ht : md.length - 1 < md.length := by omega
    refine ⟨md[md.length - 1], ?_⟩
    simp only [pyGet, if_neg h0]
    norm_num [hlen, List.getElem?_eq_getElem ht]

/-- The collection loop on hits that are all in `[0, metadata length)`:
nothing is skipped, nothing raises, and each tuple is built from an in-bounds
metadata record and the hit's distance. -/
theorem processHits_inbounds (md : List Meta) :
    ∀ hits : List (Int × ℚ),
      (∀ h ∈ hits, 0 ≤ h.1 ∧ h.1 < (md.length : Int)) →
      ∃ l, processHits md hits = some l ∧ l.length = hits.length ∧
        ∀ r ∈ l, r.2.1 ∈ md ∧ r.1 = r.2.1.text ∧ ∃ h ∈ hits, r.2.2 = h.2 := by
  intro hits
  induction hits with
  | nil =>
    intro _
    exact ⟨[], rfl, rfl, by intro r hr; cases hr⟩
  | cons h hs ih =>
    intro hb
    obtain ⟨h0, hlt⟩ := hb h (List.mem_cons_self h hs)
    obtain ⟨l, hl, hlen, hmem⟩ :=
      ih fun x hx => hb x (List.mem_cons_of_mem h hx)
    have ht : h.1.toNat < md.length := by omega
    have hget : pyGet md h.1 = some md[h.1.toNat] := by
      simp [pyGet, h0, List.getElem?_eq_getElem ht]
    refine ⟨(md[h.1.toNat].text, md[h.1.toNat], h.2) :: l, ?_, by simp [hlen], ?_⟩
    · simp only [processHits, if_pos hlt, hget, hl, Option.map_some']
    · intro r hr
      rcases List.mem_cons.mp hr with rfl | hr'
      · exact ⟨List.getElem_mem ht, rfl, h, List.mem_cons_self h hs, rfl⟩
      · obtain ⟨m1, m2, hh, hhm, hd⟩ := hmem r hr'
        exact ⟨m1, m2, hh, List.mem_cons_of_mem h hhm, hd⟩

/-- C4: on a store whose vector count equals its metadata count and holds at
least `k` entries, `search` with `topK = k` returns exactly `k` results, each
a `(text, metadata, distance)` tuple built from an in-bounds metadata record
with `text` equal to that record's text and a nonnegative distance. -/
theorem search_topk (s : VectorStore) (embed : String → Vec) (q : String)
    (k : Nat) (hlen : s.index.length = s.metadata.length)
    (hk : k ≤ s.index.length) :
    ∃ l, s.search embed q k = some l ∧ l.length = k ∧
      ∀ r ∈ l, 0 ≤ r.2.2 ∧ r.2.1 ∈ s.metadata ∧ r.1 = r.2.1.text := by
  by_cases hz : s.index.length = 0
  · have hk0 : k = 0 := by omega
    subst hk0
    exact ⟨[], by simp [VectorStore.search, hz], rfl, by intro r hr; cases hr⟩
  · have hb : ∀ h ∈ faissSearch s.index (embed q) k,
        0 ≤ h.1 ∧ h.1 < (s.metadata.length : Int) := by
      intro h hh
      obtain ⟨heq, hlen'⟩ := faissSearch_of_le s.index (embed q) k hk
      rcases faissSearch_mem s.index (embed q) k h hh with hpad | ⟨h1, h2, _⟩
      · exfalso
        rw [heq] at hh
        have hm : h ∈ (faissScored (embed q) s.index 0).insertionSort
            fun a b => a.2 ≤ b.2 := List.mem_of_mem_take hh
        have hm' : h ∈ faissScored (embed q) s.index 0 :=
          (List.mem_insertionSort _).mp hm
        obtain ⟨hge, _, _⟩ := faissScored_bounds (embed q) s.index 0 h hm'
        rw [hpad] at hge
        norm_num at hge
      · exact ⟨h1, by rw [← hlen]; exact h2⟩
    obtain ⟨l, hl, hllen, hmem⟩ :=
      processHits_inbounds s.metadata (faissSearch s.index (embed q) k) hb
    refine ⟨l, ?_, ?_, ?_⟩
    · simp only [VectorStore.search, if_neg hz]
      exact hl
    · rw [hllen, (faissSearch_of_le s.index (embed q) k hk).2]
    · intro r hr
      obtain ⟨hm1, hm2, h, hh, hd⟩ := hmem r hr
      have := faissSearch_mem s.index (embed q) k h hh
      rcases this with hpad | ⟨_, _, h3⟩
      · exfalso
        have := hb h hh
        rw [hpad] at this
        have : (0 : Int) ≤ -1 := this.1
        norm_num at this
      · exact ⟨hd ▸ h3, hm1, hm2⟩

theorem search_topk_witness :
    ∃ l, demoStore.search demoEmbed "q" 2 = some l ∧ l.length = 2 ∧
      ∀ r ∈ l, 0 ≤ r.2.2 ∧ r.2.1 ∈ demoStore.metadata ∧ r.1 = r.2.1.text :=
  search_topk demoStore demoEmbed "q" 2 rfl (by decide)

/-- On a nonempty metadata list, hits with index at least the metadata length
are exactly the ones the collection loop drops, and (for hits no smaller than
`-1`, the only negative label FAISS produces) the loop never raises: removing
the too-large hits beforehand does not change the outcome. -/
theorem processHits_filter (md : List Meta) (hmd : md ≠ []) :
    ∀ hits : List (Int × ℚ), (∀ h ∈ hits, -1 ≤ h.1) →
      ∃ l, processHits md hits = some l ∧
        processHits md
          (hits.filter fun h => h.1 < (md.length : Int)) = some l := by
  intro hits
  induction hits with
  | nil => intro _; exact ⟨[], rfl, rfl⟩
  | cons h hs ih =>
    intro hb
    have hh1 : -1 ≤ h.1 := hb h (List.mem_cons_self h hs)
    obtain ⟨l, hl1, hl2⟩ := ih fun x hx => hb x (List.mem_cons_of_mem h hx)
    by_cases hlt : h.1 < (md.length : Int)
    · obtain ⟨m, hm⟩ := pyGet_some md hmd h.1 hh1 hlt
      have hfil : (h :: hs).filter (fun h => h.1 < (md.length : Int)) =
          h :: hs.filter fun h => h.1 < (md.length : Int) :=
        List.filter_cons_of_pos (by simpa using hlt)
      refine ⟨(m.text, m, h.2) :: l, ?_, ?_⟩
      · simp only [processHits, if_pos hlt, hm, hl1, Option.map_some']
      · rw [hfil]
        simp only [processHits, if_pos hlt, hm, hl2, Option.map_some']
    · have hfil : (h :: hs).filter (fun h => h.1 < (md.length : Int)) =
          hs.filter fun h => h.1 < (md.length : Int) :=
        List.filter_cons_of_neg (by simpa using hlt)
      refine ⟨l, ?_, ?_⟩
      · simp only [processHits, if_neg hlt]
        exact hl1
      · rw [hfil]
        exact hl2

/-- C1 (amended): on a store with a nonempty index and nonempty metadata,
`search` never raises, and hits whose index is at least the metadata length
contribute no tuple: dropping them from the FAISS output before the
collection loop leaves the result unchanged. (Hits with index `-1` — the
FAISS padding emitted when `topK` exceeds the vector count — are NOT skipped:
Python's negative indexing resolves them to the last metadata entry, see the
counterexample `search_oob_contributes`.) -/
theorem search_skips_oob (s : VectorStore) (embed : String → Vec) (q : String)
    (k : Nat) (hne : ¬ s.index.length = 0) (hmd : s.metadata ≠ []) :
    ∃ l, s.search embed q k = some l ∧
      processHits s.metadata
        ((faissSearch s.index (embed q) k).filter
          fun h => h.1 < (s.metadata.length : Int)) = some l := by
  have hb : ∀ h ∈ faissSearch s.index (embed q) k, -1 ≤ h.1 := by
    intro h hh
    rcases faissSearch_mem s.index (embed q) k h hh with hpad | ⟨h1, _, _⟩
    · rw [hpad]
    · omega
  obtain ⟨l, h1, h2⟩ :=
    processHits_filter s.metadata hmd (faissSearch s.index (embed q) k) hb
  refine ⟨l, ?_, h2⟩
  simp only [VectorStore.search, if_neg hne]
  exact h1

theorem search_skips_oob_witness :
    ∃ l, demoStore.search demoEmbed "q" 5 = some l ∧
      processHits demoStore.metadata
        ((faissSearch demoStore.index (demoEmbed "q") 5).filter
          fun h => h.1 < (demoStore.metadata.length : Int)) = some l :=
  search_skips_oob demoStore demoEmbed "q" 5 (by decide) (by decide)

unseal Rat.add Rat.sub Rat.mul Rat.inv in
/-- C1 counterexample: a one-entry store searched with `topK = 2`. FAISS
returns the real hit and one `-1` padding hit; the padding hit's index is not
a valid in-bounds position of the metadata list, yet it is not skipped — via
Python negative indexing it contributes a second tuple duplicating the last
metadata entry, so the result has two tuples instead of one. -/
theorem search_oob_contributes :
    faissSearch [[(0 : ℚ)]] [(0 : ℚ)] 2 =
      [((0 : Int), (0 : ℚ)), ((-1 : Int), fltMax)] ∧
    VectorStore.search ⟨[[(0 : ℚ)]], [⟨"t", "s"⟩]⟩ (fun _ => [(0 : ℚ)]) "q" 2 =
      some [("t", ⟨"t", "s"⟩, 0), ("t", ⟨"t", "s"⟩, fltMax)] := by
  constructor
  · decide
  · decide
